import Mathlib

/-!
Shallow embedding of the retail-transaction preprocessing pipeline
(Preprocessing/automate_Chardinal Martin Butarbutar.py).

The pipeline loads a CSV into a pandas DataFrame and applies, in order:
drop_duplicates (keep first), dropna, to_datetime on TransactionDate,
rename DiscountApplied(%) -> DiscountApplied, drop StoreLocation and
ProductID if present, LabelEncoder.fit_transform on PaymentMethod and
ProductCategory if present, then writes the result.

A table is a column-name list together with a list of rows; a cell is an
optional scalar value, with none standing for a missing value (NaN).
Fallible stages return Except String Table; the file system is an explicit
association list from path to table content.
-/

namespace Retail

/-- Scalar values a cell may hold: a string, a (signed) integer as produced
by the label encoder, or a parsed date stored as a numeric code, mirroring
the datetime64 representation. -/
inductive Value where
  | str (s : String)
  | int (n : Int)
  | date (code : Nat)
deriving DecidableEq

/-- A cell of the table; none models a missing value (NaN).  pandas treats
two NaN cells as equal when deciding duplicate rows, matching equality of
none with none here. -/
abbrev Cell := Option Value

/-- The in-memory table: a header of column names and a list of rows, each
row a list of cells positionally aligned with the header. -/
structure Table where
  cols : List String
  rows : List (List Cell)
deriving DecidableEq

/-- Rectangularity: every row has exactly one cell per column.  Tables
produced by pandas.read_csv are rectangular. -/
def Table.Rect (t : Table) : Prop := ∀ r ∈ t.rows, r.length = t.cols.length

/-- First position of a column name in a header, as pandas column label
lookup resolves a name to its first matching position. -/
def findCol (name : String) : List String → Option Nat
  | [] => none
  | c :: cs => if c = name then some 0 else (findCol name cs).map (· + 1)

/-- The column of a table at a given position (none where a row is too
short). -/
def Table.colAt (t : Table) (i : Nat) : List Cell :=
  t.rows.map (fun r => r.getD i none)

/-- The column of a table selected by name, empty when the name is absent. -/
def Table.col (t : Table) (name : String) : List Cell :=
  match findCol name t.cols with
  | some i => t.colAt i
  | none => []

/-- Embeds df.drop_duplicates(keep='first'): the first occurrence of each
row value is kept, later exact repetitions are removed. -/
def dedupFirst {α : Type} [DecidableEq α] : List α → List α
  | [] => []
  | x :: xs => x :: (dedupFirst xs).filter (fun y => decide (y ≠ x))

/-- Step 1 of the pipeline: df.drop_duplicates(inplace=True). -/
def dedupStage (t : Table) : Table :=
  { t with rows := dedupFirst t.rows }

/-- A row with no missing value in any cell, as df.dropna keeps. -/
def rowComplete (r : List Cell) : Bool := r.all (fun c => c.isSome)

/-- Step 2 of the pipeline: df.dropna(inplace=True). -/
def dropnaStage (t : Table) : Table :=
  { t with rows := t.rows.filter rowComplete }

/-- Splitting a character list at every dash, the list analogue of
splitting a string on the separator "-". -/
def splitDash : List Char → List (List Char)
  | [] => [[]]
  | c :: cs =>
    match splitDash cs with
    | [] => if c = '-' then [[], []] else [[c]]
    | g :: gs => if c = '-' then [] :: g :: gs else (c :: g) :: gs

/-- The numeric value of a decimal digit character, none otherwise. -/
def digitVal (c : Char) : Option Nat :=
  if 48 ≤ c.toNat ∧ c.toNat ≤ 57 then some (c.toNat - 48) else none

/-- Reading an all-digit group as a number, left to right. -/
def digitsAux (acc : Option Nat) : List Char → Option Nat
  | [] => acc
  | c :: cs =>
    digitsAux
      (match acc, digitVal c with
       | some n, some d => some (n * 10 + d)
       | _, _ => none) cs

/-- A nonempty all-digit character group as a number, none otherwise. -/
def digitsToNat (cs : List Char) : Option Nat :=
  if cs.isEmpty then none else digitsAux (some 0) cs

/-- Model of the pandas date parser for ISO-format dates: year-month-day
with numeric components in range; the result is packed into a single
numeric code.  Any string the parser cannot interpret yields none. -/
def parseDate (s : String) : Option Nat :=
  match (splitDash s.data).map digitsToNat with
  | [some y, some m, some d] =>
    if 1 ≤ m ∧ m ≤ 12 ∧ 1 ≤ d ∧ d ≤ 31 then
      some ((y * 12 + (m - 1)) * 31 + (d - 1))
    else none
  | _ => none

/-- Converting one cell with pd.to_datetime (default errors='raise'):
a missing cell stays missing (NaT), a numeric cell is read as an epoch
offset, a date cell is kept, and an unparsable string raises. -/
def parseCell : Cell → Except String Cell
  | none => Except.ok none
  | some (Value.str s) =>
    match parseDate s with
    | some c => Except.ok (some (Value.date c))
    | none => Except.error ("unparsable date: " ++ s)
  | some (Value.int n) => Except.ok (some (Value.date n.toNat))
  | some (Value.date c) => Except.ok (some (Value.date c))

/-- Rewrites the TransactionDate cell of one row, propagating a parse
failure. -/
def dateRow (i : Nat) (r : List Cell) : Except String (List Cell) :=
  match parseCell (r.getD i none) with
  | Except.ok c => Except.ok (r.set i c)
  | Except.error e => Except.error e

/-- Effectful map over a list in the Except monad, stopping at the first
failing element, as pandas applies to_datetime over a column. -/
def mapMExcept {α β : Type} (f : α → Except String β) : List α → Except String (List β)
  | [] => Except.ok []
  | a :: as =>
    match f a with
    | Except.error e => Except.error e
    | Except.ok b =>
      match mapMExcept f as with
      | Except.error e => Except.error e
      | Except.ok bs => Except.ok (b :: bs)

/-- Step 3 of the pipeline: if 'TransactionDate' is a column, replace it by
pd.to_datetime(df['TransactionDate']); a parse failure propagates. -/
def dateStage (t : Table) : Except String Table :=
  match findCol "TransactionDate" t.cols with
  | none => Except.ok t
  | some i =>
    match mapMExcept (dateRow i) t.rows with
    | Except.ok rs => Except.ok { t with rows := rs }
    | Except.error e => Except.error e

/-- The rename mapping of step 4: df.rename(columns={'DiscountApplied(%)':
'DiscountApplied'}), which renames matching labels and leaves every other
label unchanged. -/
def renameCol (c : String) : String :=
  if c = "DiscountApplied(%)" then "DiscountApplied" else c

/-- Step 4 of the pipeline: the column rename; row data is untouched. -/
def renameStage (t : Table) : Table :=
  { t with cols := t.cols.map renameCol }

/-- True of the column names step 5 keeps. -/
def keepCol (c : String) : Bool := c ≠ "StoreLocation" && c ≠ "ProductID"

/-- Removing the dropped columns from one row, via its positional alignment
with the header. -/
def dropColsRow (cols : List String) (r : List Cell) : List Cell :=
  ((cols.zip r).filter (fun p => keepCol p.1)).map Prod.snd

/-- Step 5 of the pipeline: compute existing_cols_to_drop as the members of
['StoreLocation', 'ProductID'] present in the header and drop them only
when that list is nonempty, as the source does. -/
def dropColsStage (t : Table) : Table :=
  let existing := (["StoreLocation", "ProductID"].filter (fun c => decide (c ∈ t.cols)))
  if existing.isEmpty then t
  else
    { cols := t.cols.filter keepCol,
      rows := t.rows.map (dropColsRow t.cols) }

/-- The string carried by a cell, if any. -/
def asStr : Cell → Option String
  | some (Value.str s) => some s
  | _ => none

/-- All cells of a column read as strings; none when any cell is not a
string, in which case the label encoder raises on the mixed column. -/
def colStrs : List Cell → Option (List String)
  | [] => some []
  | c :: cs =>
    match asStr c, colStrs cs with
    | some s, some ss => some (s :: ss)
    | _, _ => none

/-- First position of a string in a list of labels (the list length when
absent); the integer code LabelEncoder.transform assigns relative to its
classes_ array. -/
def idxIn (s : String) : List String → Nat
  | [] => 0
  | c :: cs => if c = s then 0 else idxIn s cs + 1

/-- The ascending lexicographic order on strings by code point, the order
numpy.unique sorts string labels in; phrased on the underlying character
lists so that it evaluates inside the kernel. -/
def strLe (a b : String) : Prop := a.data ≤ b.data

instance : DecidableRel strLe :=
  fun a b => inferInstanceAs (Decidable (a.data ≤ b.data))

instance : IsTotal String strLe :=
  ⟨fun a b => le_total a.data b.data⟩

instance : IsTrans String strLe :=
  ⟨fun _ _ _ h1 h2 => le_trans h1 h2⟩

instance : IsAntisymm String strLe := by
  constructor
  intro a b h1 h2
  cases a
  cases b
  exact congrArg String.mk (le_antisymm h1 h2)

/-- The classes_ array of a fitted LabelEncoder: numpy.unique of the column,
i.e. the distinct values in ascending order. -/
def labelClasses (ss : List String) : List String :=
  List.insertionSort strLe (dedupFirst ss)

/-- Replacing one cell by its integer code under fixed classes. -/
def encodeCell (classes : List String) (c : Cell) : Cell :=
  match c with
  | some (Value.str s) => some (Value.int (idxIn s classes))
  | c => c

/-- Step 6 of the pipeline for one column: if the name is a column, fit a
fresh LabelEncoder on the column and replace it by the integer codes; a
non-string column makes the encoder raise. -/
def encodeColStage (name : String) (t : Table) : Except String Table :=
  match findCol name t.cols with
  | none => Except.ok t
  | some i =>
    match colStrs (t.colAt i) with
    | none => Except.error ("non-string values in column " ++ name)
    | some ss =>
      let classes := labelClasses ss
      Except.ok { t with rows := t.rows.map (fun r => r.set i (encodeCell classes (r.getD i none))) }

/-- The whole in-memory transformation of preprocess_transaction_data, in
the source's order: deduplicate, drop incomplete rows, normalize the date
column, rename, drop unneeded columns, encode the two categorical
columns. -/
def preprocessTable (t : Table) : Except String Table :=
  match dateStage (dropnaStage (dedupStage t)) with
  | Except.error e => Except.error e
  | Except.ok t3 =>
    match encodeColStage "PaymentMethod" (dropColsStage (renameStage t3)) with
    | Except.error e => Except.error e
    | Except.ok t6 => encodeColStage "ProductCategory" t6

/-- Modelled from the spec: the deduplication contract stated as "remove
all rows that are exact duplicates of an earlier row (keep the first
occurrence)" — position i of the list is kept exactly when the value there
does not already occur among the earlier positions. -/
def firstOccurrences {α : Type} [DecidableEq α] (l : List α) : List α :=
  (List.range l.length).filterMap (fun i =>
    (l[i]?).bind (fun x => if x ∈ l.take i then none else some x))

/-- A file system as an association list from path to table content; the
most recent write of a path shadows older entries. -/
structure FileSys where
  files : List (String × Table)

/-- Reading the table stored at a path, none when the path has no file. -/
def FileSys.readAt (fs : FileSys) (p : String) : Option Table :=
  fs.files.lookup p

/-- Writing a table at a path. -/
def FileSys.writeAt (fs : FileSys) (p : String) (t : Table) : FileSys :=
  { files := (p, t) :: fs.files }

/-- The per-column missing-value counts df.isnull().sum() reports. -/
def missingPerCol (t : Table) : List Nat :=
  (List.range t.cols.length).map
    (fun i => (t.rows.filter (fun r => (r.getD i none).isNone)).length)

/-- The progress lines the function prints when verbose: the read banner,
the duplicate count of the loaded frame, and the per-column missing-value
counts of the deduplicated frame, in print order. -/
def progressLog (input : String) (t : Table) : List String :=
  ["Membaca dataset dari: " ++ input,
   "Jumlah duplikat sebelum dihapus: " ++ toString (t.rows.length - (dedupFirst t.rows).length),
   "Jumlah missing values sebelum dihapus: " ++ toString (missingPerCol (dedupStage t))]

/-- Top-level model of preprocess_transaction_data: check the input path
exists (else FileNotFoundError naming the path), read the table, transform
it, and write the result at the output path.  Returns the printed log, the
final file system, and either the returned output path or the raised
error. -/
def preprocess_transaction_data (fs : FileSys) (input output : String)
    (verbose : Bool) : List String × FileSys × Except String String :=
  match fs.readAt input with
  | none => ([], fs, Except.error ("File input tidak ditemukan: " ++ input))
  | some t =>
    let log := if verbose then progressLog input t else []
    match preprocessTable t with
    | Except.error e => (log, fs, Except.error e)
    | Except.ok t' => (log, fs.writeAt output t', Except.ok output)

/-! Concrete tables and file systems used to exercise the theorems on
explicit inputs. -/

/-- A small raw table with one exact duplicate row, one row whose only
missing value sits in the later-dropped StoreLocation column, plus all six
named columns of the dataset. -/
def tEx : Table :=
  { cols := ["TransactionDate", "DiscountApplied(%)", "StoreLocation", "ProductID",
             "PaymentMethod", "ProductCategory"],
    rows :=
      [[some (Value.str "2024-01-02"), some (Value.int 10), some (Value.str "NY"),
        some (Value.str "P1"), some (Value.str "Cash"), some (Value.str "Food")],
       [some (Value.str "2024-01-02"), some (Value.int 10), some (Value.str "NY"),
        some (Value.str "P1"), some (Value.str "Cash"), some (Value.str "Food")],
       [some (Value.str "2024-01-03"), some (Value.int 0), none,
        some (Value.str "P2"), some (Value.str "Card"), some (Value.str "Toys")],
       [some (Value.str "2024-01-04"), some (Value.int 5), some (Value.str "LA"),
        some (Value.str "P3"), some (Value.str "Card"), some (Value.str "Food")]] }

/-- The exact table the pipeline produces from tEx. -/
def tExOut : Table :=
  { cols := ["TransactionDate", "DiscountApplied", "PaymentMethod", "ProductCategory"],
    rows :=
      [[some (Value.date 752929), some (Value.int 10), some (Value.int 1), some (Value.int 0)],
       [some (Value.date 752931), some (Value.int 5), some (Value.int 0), some (Value.int 0)]] }

/-- A table whose surviving TransactionDate column holds a string no date
parser accepts. -/
def tBad : Table :=
  { cols := ["TransactionDate", "PaymentMethod"],
    rows := [[some (Value.str "oops"), some (Value.str "Cash")]] }

/-- A file system holding only the raw example table. -/
def fsEx : FileSys := { files := [("raw.csv", tEx)] }

/-- The empty file system. -/
def fsEmpty : FileSys := { files := [] }

/-- A file system holding only the table with the unparsable date. -/
def fsBad : FileSys := { files := [("raw.csv", tBad)] }

instance (t : Table) : Decidable t.Rect :=
  inferInstanceAs (Decidable (∀ r ∈ t.rows, r.length = t.cols.length))

/-! ### Deduplication -/

theorem mem_dedupFirst {α : Type} [DecidableEq α] {x : α} {l : List α} :
    x ∈ dedupFirst l ↔ x ∈ l := by
  induction l with
  | nil => simp [dedupFirst]
  | cons a as ih =>
    by_cases hxa : x = a <;>
      simp [dedupFirst, List.mem_filter, ih, hxa]

theorem nodup_dedupFirst {α : Type} [DecidableEq α] (l : List α) :
    (dedupFirst l).Nodup := by
  induction l with
  | nil => simp [dedupFirst]
  | cons a as ih =>
    simp only [dedupFirst, List.nodup_cons]
    refine ⟨?_, List.Nodup.filter _ ih⟩
    intro hmem
    rcases List.mem_filter.mp hmem with ⟨-, hne⟩
    simp at hne

theorem firstOccurrences_nil {α : Type} [DecidableEq α] :
    firstOccurrences ([] : List α) = [] := rfl

theorem firstOccurrences_cons {α : Type} [DecidableEq α] (x : α) (xs : List α) :
    firstOccurrences (x :: xs) =
      x :: (firstOccurrences xs).filter (fun y => decide (y ≠ x)) := by
  unfold firstOccurrences
  rw [List.length_cons, List.range_succ_eq_map, List.filterMap_cons]
  simp only [List.getElem?_cons_zero, Option.bind_some, List.take_zero,
    List.not_mem_nil, if_neg (fun h => h), List.filterMap_map]
  refine congrArg (x :: ·) ?_
  rw [List.filter_filterMap]
  refine List.filterMap_congr ?_
  intro i hi
  rw [List.mem_range] at hi
  simp only [Function.comp_apply, List.getElem?_cons_succ, List.take_succ_cons,
    List.getElem?_eq_getElem hi, Option.bind_some, List.mem_cons]
  by_cases h1 : xs[i] ∈ xs.take i
  · simp [h1, Option.filter]
  · by_cases h2 : xs[i] = x
    · rw [h2] at h1
      simp [h2, h1, Option.filter]
    · simp [h1, h2, Option.filter]

theorem dedupFirst_eq_firstOccurrences {α : Type} [DecidableEq α] (l : List α) :
    dedupFirst l = firstOccurrences l := by
  induction l with
  | nil => rfl
  | cons a as ih => rw [firstOccurrences_cons, dedupFirst, ih]

/-! ### The effectful map -/

theorem mapMExcept_ok_forall₂ {α β : Type} {f : α → Except String β} :
    ∀ {l : List α} {l' : List β}, mapMExcept f l = Except.ok l' →
      List.Forall₂ (fun a b => f a = Except.ok b) l l' := by
  intro l
  induction l with
  | nil =>
    intro l' h
    simp only [mapMExcept] at h
    cases h
    exact List.Forall₂.nil
  | cons a as ih =>
    intro l' h
    simp only [mapMExcept] at h
    cases hfa : f a with
    | error e => rw [hfa] at h; cases h
    | ok b =>
      rw [hfa] at h
      cases hms : mapMExcept f as with
      | error e => rw [hms] at h; cases h
      | ok bs =>
        rw [hms] at h
        cases h
        exact List.Forall₂.cons hfa (ih hms)

theorem mapMExcept_error_of_mem {α β : Type} {f : α → Except String β}
    {l : List α} {a : α} {e : String} (ha : a ∈ l) (hfa : f a = Except.error e) :
    ∃ e', mapMExcept f l = Except.error e' := by
  induction l with
  | nil => cases ha
  | cons x xs ih =>
    rcases List.mem_cons.mp ha with h | h
    · subst h
      exact ⟨e, by simp [mapMExcept, hfa]⟩
    · rcases hfx : f x with e₀ | b
      · exact ⟨e₀, by simp [mapMExcept, hfx]⟩
      · rcases ih h with ⟨e', he'⟩
        exact ⟨e', by simp [mapMExcept, hfx, he']⟩

theorem forall₂_length {α β : Type} {R : α → β → Prop} {l : List α} {l' : List β}
    (h : List.Forall₂ R l l') : l'.length = l.length :=
  (List.Forall₂.length_eq h).symm

theorem forall₂_map_eq {α β γ : Type} {R : α → β → Prop} {g : β → γ} {k : α → γ} :
    ∀ {l : List α} {l' : List β}, List.Forall₂ R l l' →
      (∀ a b, R a b → g b = k a) → l'.map g = l.map k := by
  intro l l' h
  induction h with
  | nil => intro; rfl
  | cons hab _ ih =>
    intro hgk
    simp only [List.map_cons, hgk _ _ hab, ih hgk]

theorem forall₂_mem_left {α β : Type} {R : α → β → Prop} :
    ∀ {l : List α} {l' : List β}, List.Forall₂ R l l' →
      ∀ a ∈ l, ∃ b, R a b := by
  intro l l' h
  induction h with
  | nil => intro a ha; cases ha
  | cons hab _ ih =>
    intro a ha
    rcases List.mem_cons.mp ha with h' | h'
    · exact ⟨_, h' ▸ hab⟩
    · exact ih a h'

/-! ### Positional access -/

theorem getD_set_ne {α : Type} (l : List α) {i j : Nat} (v d : α) (h : i ≠ j) :
    (l.set i v).getD j d = l.getD j d := by
  simp [List.getD_eq_getElem?_getD, List.getElem?_set_ne h]

theorem getD_set_self {α : Type} (l : List α) {i : Nat} (v d : α)
    (h : i < l.length) : (l.set i v).getD i d = v := by
  simp [List.getD_eq_getElem?_getD, List.getElem?_set_self h]

theorem findCol_lt_length {name : String} :
    ∀ {cols : List String} {i : Nat}, findCol name cols = some i → i < cols.length := by
  intro cols
  induction cols with
  | nil => intro i h; cases h
  | cons c cs ih =>
    intro i h
    simp only [findCol] at h
    by_cases hc : c = name
    · rw [if_pos hc] at h; cases h; simp
    · rw [if_neg hc] at h
      cases hfc : findCol name cs with
      | none => rw [hfc] at h; cases h
      | some j =>
        rw [hfc] at h
        cases h
        simpa using ih hfc

theorem findCol_getD {name : String} :
    ∀ {cols : List String} {i : Nat}, findCol name cols = some i →
      cols.getD i "" = name := by
  intro cols
  induction cols with
  | nil => intro i h; cases h
  | cons c cs ih =>
    intro i h
    simp only [findCol] at h
    by_cases hc : c = name
    · rw [if_pos hc] at h; cases h; simpa using hc
    · rw [if_neg hc] at h
      cases hfc : findCol name cs with
      | none => rw [hfc] at h; cases h
      | some j =>
        rw [hfc] at h
        cases h
        simpa using ih hfc

theorem findCol_isSome_of_mem {name : String} :
    ∀ {cols : List String}, name ∈ cols → ∃ i, findCol name cols = some i := by
  intro cols
  induction cols with
  | nil => intro h; cases h
  | cons c cs ih =>
    intro h
    by_cases hc : c = name
    · exact ⟨0, by simp [findCol, hc]⟩
    · rcases List.mem_cons.mp h with h' | h'
      · exact absurd h'.symm hc
      · rcases ih h' with ⟨i, hi⟩
        exact ⟨i + 1, by simp [findCol, hc, hi]⟩

theorem findCol_ne_of_ne {n₁ n₂ : String} {cols : List String} {i₁ i₂ : Nat}
    (hne : n₁ ≠ n₂) (h₁ : findCol n₁ cols = some i₁)
    (h₂ : findCol n₂ cols = some i₂) : i₁ ≠ i₂ := by
  intro heq
  apply hne
  rw [← findCol_getD h₁, ← findCol_getD h₂, heq]

theorem findCol_map {name : String} {f : String → String}
    (hf : ∀ c, f c = name ↔ c = name) :
    ∀ {cols : List String}, findCol name (cols.map f) = findCol name cols := by
  intro cols
  induction cols with
  | nil => rfl
  | cons c cs ih =>
    by_cases hc : c = name
    · subst hc
      simp [findCol, (hf c).mpr rfl]
    · have : f c ≠ name := fun h => hc ((hf c).mp h)
      simp [findCol, this, hc, ih]

theorem mem_of_findCol {name : String} {cols : List String} {i : Nat}
    (h : findCol name cols = some i) : name ∈ cols := by
  have hlt := findCol_lt_length h
  have hgd := findCol_getD h
  rw [List.getD_eq_getElem?_getD, List.getElem?_eq_getElem hlt] at hgd
  simp only [Option.getD_some] at hgd
  exact hgd ▸ List.getElem_mem hlt

theorem findCol_eq_none_of_not_mem {name : String} {cols : List String}
    (h : name ∉ cols) : findCol name cols = none := by
  cases hfc : findCol name cols with
  | none => rfl
  | some i => exact absurd (mem_of_findCol hfc) h

/-! ### The date stage -/

theorem parseCell_ok_some {v : Value} {c : Cell}
    (h : parseCell (some v) = Except.ok c) : ∃ w, c = some w := by
  cases v with
  | str s =>
    simp only [parseCell] at h
    cases hp : parseDate s with
    | none => rw [hp] at h; cases h
    | some k => rw [hp] at h; cases h; exact ⟨_, rfl⟩
  | int n => cases h; exact ⟨_, rfl⟩
  | date k => cases h; exact ⟨_, rfl⟩

theorem dateRow_ok_elim {i : Nat} {r r' : List Cell}
    (h : dateRow i r = Except.ok r') :
    ∃ c, parseCell (r.getD i none) = Except.ok c ∧ r' = r.set i c := by
  unfold dateRow at h
  cases hp : parseCell (r.getD i none) with
  | error e => rw [hp] at h; cases h
  | ok c => rw [hp] at h; cases h; exact ⟨c, rfl, rfl⟩

theorem dateStage_ok_elim {t t' : Table} (h : dateStage t = Except.ok t') :
    (findCol "TransactionDate" t.cols = none ∧ t' = t) ∨
    ∃ i, findCol "TransactionDate" t.cols = some i ∧ t'.cols = t.cols ∧
      List.Forall₂ (fun r r' => dateRow i r = Except.ok r') t.rows t'.rows := by
  unfold dateStage at h
  split at h
  · cases h
    rename_i hfc
    exact Or.inl ⟨hfc, rfl⟩
  · rename_i i hfc
    split at h
    · rename_i rs hm
      cases h
      exact Or.inr ⟨i, hfc, rfl, mapMExcept_ok_forall₂ hm⟩
    · cases h

theorem dateStage_ok_cols {t t' : Table} (h : dateStage t = Except.ok t') :
    t'.cols = t.cols := by
  rcases dateStage_ok_elim h with ⟨-, rfl⟩ | ⟨i, -, hcols, -⟩
  · rfl
  · exact hcols

theorem dateStage_ok_rows_length {t t' : Table} (h : dateStage t = Except.ok t') :
    t'.rows.length = t.rows.length := by
  rcases dateStage_ok_elim h with ⟨-, rfl⟩ | ⟨i, -, -, hrel⟩
  · rfl
  · exact forall₂_length hrel

theorem dateStage_ok_colAt_ne {t t' : Table} (h : dateStage t = Except.ok t')
    {j : Nat} (hj : ∀ i, findCol "TransactionDate" t.cols = some i → j ≠ i) :
    t'.colAt j = t.colAt j := by
  rcases dateStage_ok_elim h with ⟨-, rfl⟩ | ⟨i, hfc, -, hrel⟩
  · rfl
  · unfold Table.colAt
    refine forall₂_map_eq hrel ?_
    intro r r' hrr
    rcases dateRow_ok_elim hrr with ⟨c, -, rfl⟩
    exact getD_set_ne r c none (fun he => hj i hfc he.symm)

theorem dateRow_ok_complete {i : Nat} {r r' : List Cell}
    (h : dateRow i r = Except.ok r') (hc : rowComplete r = true) :
    rowComplete r' = true := by
  rcases dateRow_ok_elim h with ⟨c, hp, rfl⟩
  by_cases hi : i < r.length
  · have hmem : r.getD i none ∈ r := by
      rw [List.getD_eq_getElem?_getD, List.getElem?_eq_getElem hi]
      exact List.getElem_mem hi
    have hsome := (List.all_eq_true.mp hc) _ hmem
    rcases Option.isSome_iff_exists.mp hsome with ⟨v, hv⟩
    rw [hv] at hp
    rcases parseCell_ok_some hp with ⟨w, rfl⟩
    rw [rowComplete, List.all_eq_true]
    intro a ha
    rcases List.mem_or_eq_of_mem_set ha with ha' | rfl
    · exact (List.all_eq_true.mp hc) _ ha'
    · rfl
  · rw [List.set_eq_of_length_le (Nat.le_of_not_lt hi)]
    exact hc

theorem dateRow_ok_length {i : Nat} {r r' : List Cell}
    (h : dateRow i r = Except.ok r') : r'.length = r.length := by
  rcases dateRow_ok_elim h with ⟨c, -, rfl⟩
  exact List.length_set r i c

/-! ### The rename stage -/

theorem renameCol_fixed {name : String} (h1 : name ≠ "DiscountApplied")
    (h2 : name ≠ "DiscountApplied(%)") :
    ∀ c, renameCol c = name ↔ c = name := by
  intro c
  unfold renameCol
  by_cases hc : c = "DiscountApplied(%)"
  · rw [if_pos hc]
    constructor
    · intro h; exact absurd h.symm h1
    · intro h; exact absurd (hc ▸ h).symm h2
  · rw [if_neg hc]

theorem renameCol_ne_dropped (c : String) :
    (renameCol c = "StoreLocation" ↔ c = "StoreLocation") ∧
    (renameCol c = "ProductID" ↔ c = "ProductID") :=
  ⟨renameCol_fixed (by decide) (by decide) c, renameCol_fixed (by decide) (by decide) c⟩

theorem renameStage_not_mem (t : Table) :
    "DiscountApplied(%)" ∉ (renameStage t).cols := by
  intro hmem
  rcases List.mem_map.mp hmem with ⟨c, -, hc⟩
  unfold renameCol at hc
  by_cases h' : c = "DiscountApplied(%)"
  · rw [if_pos h'] at hc
    exact absurd hc (by decide)
  · rw [if_neg h'] at hc
    exact h' hc

theorem renameStage_id_of_not_mem {t : Table}
    (h : "DiscountApplied(%)" ∉ t.cols) : renameStage t = t := by
  have hmap : t.cols.map renameCol = t.cols := by
    have h2 : t.cols.map renameCol = t.cols.map id :=
      List.map_congr_left (fun c hc => by
        have hne : c ≠ "DiscountApplied(%)" := fun he => h (by rw [← he]; exact hc)
        unfold renameCol
        rw [if_neg hne]
        rfl)
    rw [h2, List.map_id]
  unfold renameStage
  rw [hmap]

/-! ### The column-drop stage -/

theorem dropColsRow_nil_left (r : List Cell) : dropColsRow [] r = [] := rfl

theorem dropColsRow_cons (c : String) (cs : List String) (x : Cell) (xs : List Cell) :
    dropColsRow (c :: cs) (x :: xs) =
      if keepCol c then x :: dropColsRow cs xs else dropColsRow cs xs := by
  unfold dropColsRow
  rw [List.zip_cons_cons, List.filter_cons]
  by_cases hk : keepCol c
  · simp [hk]
  · simp [hk]

theorem dropColsRow_complete {cols : List String} {r : List Cell}
    (hc : rowComplete r = true) : rowComplete (dropColsRow cols r) = true := by
  rw [rowComplete, List.all_eq_true]
  intro a ha
  unfold dropColsRow at ha
  rcases List.mem_map.mp ha with ⟨p, hp, rfl⟩
  have hz := (List.mem_filter.mp hp).1
  exact (List.all_eq_true.mp hc) _ (List.of_mem_zip hz).2

theorem dropColsRow_length : ∀ (cols : List String) (r : List Cell),
    r.length = cols.length →
    (dropColsRow cols r).length = (cols.filter keepCol).length := by
  intro cols
  induction cols with
  | nil =>
    intro r h
    rw [List.length_nil] at h
    rw [List.eq_nil_of_length_eq_zero h]
    rfl
  | cons c cs ih =>
    intro r h
    cases r with
    | nil => cases h
    | cons x xs =>
      simp only [List.length_cons, Nat.succ.injEq] at h
      rw [dropColsRow_cons, List.filter_cons]
      by_cases hk : keepCol c
      · simp [hk, ih xs h]
      · simp [hk, ih xs h]

theorem dropColsRow_id {cols : List String} {r : List Cell}
    (hall : ∀ c ∈ cols, keepCol c = true) (hlen : r.length = cols.length) :
    dropColsRow cols r = r := by
  unfold dropColsRow
  have hfil : (cols.zip r).filter (fun p => keepCol p.1) = cols.zip r := by
    rw [List.filter_eq_self]
    intro p hp
    exact hall _ (List.of_mem_zip hp).1
  rw [hfil]
  exact List.map_snd_zip cols r (le_of_eq hlen)

theorem keepCol_of_not_mem {cols : List String}
    (hsl : "StoreLocation" ∉ cols) (hpid : "ProductID" ∉ cols) :
    ∀ c ∈ cols, keepCol c = true := by
  intro c hc
  unfold keepCol
  rw [Bool.and_eq_true]
  constructor
  · rw [decide_eq_true_eq]
    intro he
    exact hsl (he ▸ hc)
  · rw [decide_eq_true_eq]
    intro he
    exact hpid (he ▸ hc)

theorem dropCols_existing_empty {t : Table}
    (h : (["StoreLocation", "ProductID"].filter (fun c => decide (c ∈ t.cols))).isEmpty = true) :
    "StoreLocation" ∉ t.cols ∧ "ProductID" ∉ t.cols := by
  rw [List.isEmpty_iff] at h
  constructor
  · intro h1
    simp [List.filter, h1] at h
  · intro h2
    by_cases h1 : "StoreLocation" ∈ t.cols
    · simp [List.filter, h1, h2] at h
    · simp [List.filter, h1, h2] at h

theorem dropCols_cols (t : Table) :
    (dropColsStage t).cols = t.cols.filter keepCol := by
  simp only [dropColsStage]
  split
  · rename_i hemp
    rcases dropCols_existing_empty hemp with ⟨h1, h2⟩
    exact (List.filter_eq_self.mpr (keepCol_of_not_mem h1 h2)).symm
  · rfl

theorem dropCols_norm {t : Table} (hrect : t.Rect) :
    dropColsStage t =
      { cols := t.cols.filter keepCol, rows := t.rows.map (dropColsRow t.cols) } := by
  simp only [dropColsStage]
  split
  · rename_i hemp
    rcases dropCols_existing_empty hemp with ⟨h1, h2⟩
    have hall := keepCol_of_not_mem h1 h2
    have hcols : t.cols.filter keepCol = t.cols := List.filter_eq_self.mpr hall
    have hrows : t.rows.map (dropColsRow t.cols) = t.rows := by
      have h2 : t.rows.map (dropColsRow t.cols) = t.rows.map id :=
        List.map_congr_left (fun r hr => dropColsRow_id hall (hrect r hr))
      rw [h2, List.map_id]
    rw [hcols, hrows]
  · rfl

theorem dropColsRow_getD :
    ∀ {cols : List String} {r : List Cell} {name : String} {i i' : Nat},
      r.length = cols.length → keepCol name = true →
      findCol name cols = some i →
      findCol name (cols.filter keepCol) = some i' →
      (dropColsRow cols r).getD i' none = r.getD i none := by
  intro cols
  induction cols with
  | nil =>
    intro r name i i' _ _ h _
    cases h
  | cons c cs ih =>
    intro r name i i' hlen hk h h'
    cases r with
    | nil => cases hlen
    | cons x xs =>
      simp only [List.length_cons, Nat.succ.injEq] at hlen
      rw [dropColsRow_cons]
      by_cases hc : c = name
      · subst hc
        simp only [findCol, eq_self_iff_true, if_true, Option.some.injEq] at h
        rw [List.filter_cons, if_pos hk] at h'
        simp only [findCol, eq_self_iff_true, if_true, Option.some.injEq] at h'
        rw [if_pos hk]
        subst h
        subst h'
        rfl
      · simp only [findCol, if_neg hc] at h
        rcases Option.map_eq_some'.mp h with ⟨j, hj, rfl⟩
        by_cases hkc : keepCol c = true
        · rw [List.filter_cons, if_pos hkc] at h'
          simp only [findCol, if_neg hc] at h'
          rcases Option.map_eq_some'.mp h' with ⟨j', hj', rfl⟩
          rw [if_pos hkc, List.getD_cons_succ, List.getD_cons_succ]
          exact ih hlen hk hj hj'
        · rw [List.filter_cons, if_neg hkc] at h'
          rw [if_neg hkc, List.getD_cons_succ]
          exact ih hlen hk hj h'

theorem findCol_filter_isSome {name : String} {cols : List String}
    (hk : keepCol name = true) (hmem : name ∈ cols) :
    ∃ i', findCol name (cols.filter keepCol) = some i' :=
  findCol_isSome_of_mem (List.mem_filter.mpr ⟨hmem, hk⟩)

theorem dropCols_colAt {t : Table} (hrect : t.Rect) {name : String}
    (hk : keepCol name = true) {i : Nat} (hfc : findCol name t.cols = some i) :
    ∃ i', findCol name (dropColsStage t).cols = some i' ∧
      (dropColsStage t).colAt i' = t.colAt i := by
  rcases findCol_filter_isSome hk (mem_of_findCol hfc) with ⟨i', hi'⟩
  refine ⟨i', by rw [dropCols_cols]; exact hi', ?_⟩
  rw [dropCols_norm hrect]
  unfold Table.colAt
  simp only [List.map_map]
  apply List.map_congr_left
  intro r hr
  exact dropColsRow_getD (hrect r hr) hk hfc hi'

/-! ### The encoding stage -/

theorem colStrs_eq :
    ∀ {cs : List Cell} {ss : List String}, colStrs cs = some ss →
      cs = ss.map (fun s => some (Value.str s)) := by
  intro cs
  induction cs with
  | nil =>
    intro ss h
    cases h
    rfl
  | cons c cs' ih =>
    intro ss h
    simp only [colStrs] at h
    cases ha : asStr c with
    | none => rw [ha] at h; cases h
    | some s =>
      rw [ha] at h
      cases hcs : colStrs cs' with
      | none => rw [hcs] at h; cases h
      | some ss' =>
        rw [hcs] at h
        cases h
        have hc : c = some (Value.str s) := by
          cases c with
          | none => cases ha
          | some v =>
            cases v with
            | str s' => cases ha; rfl
            | int n => cases ha
            | date k => cases ha
        rw [hc, ih hcs]
        rfl

theorem set_encode_getD (r : List Cell) (i : Nat) (classes : List String) :
    (r.set i (encodeCell classes (r.getD i none))).getD i none =
      encodeCell classes (r.getD i none) := by
  by_cases hi : i < r.length
  · exact getD_set_self r _ none hi
  · have hnone : r.getD i none = none := by
      rw [List.getD_eq_getElem?_getD, List.getElem?_eq_none (Nat.le_of_not_lt hi)]
      rfl
    rw [List.set_eq_of_length_le (Nat.le_of_not_lt hi), hnone]
    rfl

theorem encodeColStage_ok_elim {name : String} {t t' : Table}
    (h : encodeColStage name t = Except.ok t') :
    (findCol name t.cols = none ∧ t' = t) ∨
    ∃ i ss, findCol name t.cols = some i ∧ colStrs (t.colAt i) = some ss ∧
      t'.cols = t.cols ∧
      t'.rows = t.rows.map
        (fun r => r.set i (encodeCell (labelClasses ss) (r.getD i none))) := by
  unfold encodeColStage at h
  split at h
  · cases h
    rename_i hfc
    exact Or.inl ⟨hfc, rfl⟩
  · rename_i i hfc
    split at h
    · cases h
    · rename_i ss hss
      cases h
      exact Or.inr ⟨i, ss, hfc, hss, rfl, rfl⟩

theorem encodeColStage_ok_cols {name : String} {t t' : Table}
    (h : encodeColStage name t = Except.ok t') : t'.cols = t.cols := by
  rcases encodeColStage_ok_elim h with ⟨-, rfl⟩ | ⟨i, ss, -, -, hcols, -⟩
  · rfl
  · exact hcols

theorem encodeColStage_ok_rows_length {name : String} {t t' : Table}
    (h : encodeColStage name t = Except.ok t') : t'.rows.length = t.rows.length := by
  rcases encodeColStage_ok_elim h with ⟨-, rfl⟩ | ⟨i, ss, -, -, -, hrows⟩
  · rfl
  · rw [hrows, List.length_map]

theorem encodeColStage_ok_colAt_ne {name : String} {t t' : Table}
    (h : encodeColStage name t = Except.ok t') {j : Nat}
    (hj : ∀ i, findCol name t.cols = some i → j ≠ i) :
    t'.colAt j = t.colAt j := by
  rcases encodeColStage_ok_elim h with ⟨-, rfl⟩ | ⟨i, ss, hfc, -, -, hrows⟩
  · rfl
  · unfold Table.colAt
    rw [hrows, List.map_map]
    apply List.map_congr_left
    intro r hr
    exact getD_set_ne r _ none (fun he => hj i hfc he.symm)

theorem encodeColStage_ok_colAt_self {name : String} {t t' : Table}
    (h : encodeColStage name t = Except.ok t') {i : Nat} {ss : List String}
    (hfc : findCol name t.cols = some i) (hss : colStrs (t.colAt i) = some ss) :
    t'.colAt i = ss.map (fun s => some (Value.int (idxIn s (labelClasses ss)))) := by
  rcases encodeColStage_ok_elim h with ⟨hnone, -⟩ | ⟨i₂, ss₂, hfc₂, hss₂, -, hrows⟩
  · rw [hnone] at hfc
    cases hfc
  · rw [hfc] at hfc₂
    cases hfc₂
    rw [hss] at hss₂
    cases hss₂
    unfold Table.colAt
    rw [hrows, List.map_map]
    have hstep : t.rows.map
        (fun r => (r.set i (encodeCell (labelClasses ss) (r.getD i none))).getD i none) =
        t.rows.map (fun r => encodeCell (labelClasses ss) (r.getD i none)) :=
      List.map_congr_left (fun r _ => set_encode_getD r i (labelClasses ss))
    rw [show ((fun r : List Cell => r.getD i none) ∘
        fun r : List Cell => r.set i (encodeCell (labelClasses ss) (r.getD i none))) =
        fun r : List Cell =>
          (r.set i (encodeCell (labelClasses ss) (r.getD i none))).getD i none from rfl]
    rw [hstep]
    have hcol : t.rows.map (fun r => encodeCell (labelClasses ss) (r.getD i none)) =
        (t.colAt i).map (encodeCell (labelClasses ss)) := by
      unfold Table.colAt
      rw [List.map_map]
      rfl
    rw [hcol, colStrs_eq hss, List.map_map]
    rfl

/-! ### Shape and completeness through the stages -/

theorem forall₂_mem_right {α β : Type} {R : α → β → Prop} :
    ∀ {l : List α} {l' : List β}, List.Forall₂ R l l' →
      ∀ b ∈ l', ∃ a ∈ l, R a b := by
  intro l l' h
  induction h with
  | nil => intro b hb; cases hb
  | cons hab _ ih =>
    intro b hb
    rcases List.mem_cons.mp hb with h' | h'
    · exact ⟨_, List.mem_cons_self _ _, h' ▸ hab⟩
    · rcases ih b h' with ⟨a, ha, hr⟩
      exact ⟨a, List.mem_cons_of_mem _ ha, hr⟩

theorem dedupStage_rect {t : Table} (hrect : t.Rect) : (dedupStage t).Rect := by
  intro r hr
  exact hrect r (mem_dedupFirst.mp hr)

theorem dropnaStage_rect {t : Table} (hrect : t.Rect) : (dropnaStage t).Rect := by
  intro r hr
  exact hrect r (List.mem_filter.mp hr).1

theorem dateStage_rect {t t' : Table} (hrect : t.Rect)
    (h : dateStage t = Except.ok t') : t'.Rect := by
  rcases dateStage_ok_elim h with ⟨-, rfl⟩ | ⟨i, -, hcols, hrel⟩
  · exact hrect
  · intro r' hr'
    rcases forall₂_mem_right hrel r' hr' with ⟨r, hr, hrow⟩
    rw [hcols, dateRow_ok_length hrow]
    exact hrect r hr

theorem renameStage_rect {t : Table} (hrect : t.Rect) : (renameStage t).Rect := by
  intro r hr
  rw [show (renameStage t).cols = t.cols.map renameCol from rfl, List.length_map]
  exact hrect r hr

theorem dropCols_rect {t : Table} (hrect : t.Rect) : (dropColsStage t).Rect := by
  rw [dropCols_norm hrect]
  intro r hr
  rcases List.mem_map.mp hr with ⟨r₀, hr₀, rfl⟩
  exact dropColsRow_length t.cols r₀ (hrect r₀ hr₀)

theorem encodeColStage_rect {name : String} {t t' : Table} (hrect : t.Rect)
    (h : encodeColStage name t = Except.ok t') : t'.Rect := by
  rcases encodeColStage_ok_elim h with ⟨-, rfl⟩ | ⟨i, ss, -, -, hcols, hrows⟩
  · exact hrect
  · intro r' hr'
    rw [hrows] at hr'
    rcases List.mem_map.mp hr' with ⟨r, hr, rfl⟩
    rw [hcols, List.length_set]
    exact hrect r hr

theorem encodeCell_complete {classes : List String} {r : List Cell} {i : Nat}
    (hc : rowComplete r = true) :
    rowComplete (r.set i (encodeCell classes (r.getD i none))) = true := by
  by_cases hi : i < r.length
  · rw [rowComplete, List.all_eq_true]
    intro a ha
    rcases List.mem_or_eq_of_mem_set ha with ha' | rfl
    · exact (List.all_eq_true.mp hc) _ ha'
    · have hmem : r.getD i none ∈ r := by
        rw [List.getD_eq_getElem?_getD, List.getElem?_eq_getElem hi]
        exact List.getElem_mem hi
      have hsome := (List.all_eq_true.mp hc) _ hmem
      rcases Option.isSome_iff_exists.mp hsome with ⟨v, hv⟩
      rw [hv]
      cases v <;> rfl
  · rw [List.set_eq_of_length_le (Nat.le_of_not_lt hi)]
    exact hc

/-! ### Decomposing a successful run -/

theorem preprocessTable_ok_elim {t t' : Table}
    (h : preprocessTable t = Except.ok t') :
    ∃ t3 t6, dateStage (dropnaStage (dedupStage t)) = Except.ok t3 ∧
      encodeColStage "PaymentMethod" (dropColsStage (renameStage t3)) = Except.ok t6 ∧
      encodeColStage "ProductCategory" t6 = Except.ok t' := by
  unfold preprocessTable at h
  split at h
  · cases h
  · rename_i t3 hdate
    split at h
    · cases h
    · rename_i t6 henc
      exact ⟨t3, t6, hdate, henc, h⟩

/-! ### Label codes -/

theorem string_data_inj {a b : String} (h : a.data = b.data) : a = b := by
  cases a
  cases b
  exact congrArg String.mk h

theorem idxIn_getD {s : String} :
    ∀ {l : List String}, s ∈ l → l.getD (idxIn s l) "" = s := by
  intro l
  induction l with
  | nil =>
    intro h
    cases h
  | cons c cs ih =>
    intro h
    unfold idxIn
    by_cases hc : c = s
    · rw [if_pos hc]
      exact hc
    · rw [if_neg hc, List.getD_cons_succ]
      exact ih ((List.mem_cons.mp h).resolve_left (fun he => hc he.symm))

theorem idxIn_inj {l : List String} {s₁ s₂ : String} (h₁ : s₁ ∈ l) (h₂ : s₂ ∈ l)
    (he : idxIn s₁ l = idxIn s₂ l) : s₁ = s₂ := by
  rw [← idxIn_getD h₁, ← idxIn_getD h₂, he]

theorem mem_labelClasses {s : String} {ss : List String} :
    s ∈ labelClasses ss ↔ s ∈ ss := by
  unfold labelClasses
  rw [(List.perm_insertionSort strLe (dedupFirst ss)).mem_iff]
  exact mem_dedupFirst

theorem nodup_labelClasses (ss : List String) : (labelClasses ss).Nodup :=
  (List.perm_insertionSort strLe (dedupFirst ss)).nodup_iff.mpr (nodup_dedupFirst ss)

theorem sorted_labelClasses (ss : List String) : List.Sorted strLe (labelClasses ss) :=
  List.sorted_insertionSort strLe (dedupFirst ss)

theorem length_labelClasses (ss : List String) :
    (labelClasses ss).length = (dedupFirst ss).length :=
  (List.perm_insertionSort strLe (dedupFirst ss)).length_eq

theorem dedupFirst_map_inj {α β : Type} [DecidableEq α] [DecidableEq β] {f : α → β} :
    ∀ {l : List α}, (∀ x ∈ l, ∀ y ∈ l, f x = f y → x = y) →
      dedupFirst (l.map f) = (dedupFirst l).map f := by
  intro l
  induction l with
  | nil => intro; rfl
  | cons a as ih =>
    intro hinj
    rw [List.map_cons]
    show Retail.dedupFirst (f a :: as.map f) = (Retail.dedupFirst (a :: as)).map f
    rw [dedupFirst, dedupFirst, List.map_cons,
      ih (fun x hx y hy => hinj x (List.mem_cons_of_mem a hx) y (List.mem_cons_of_mem a hy)),
      List.filter_map]
    refine congrArg (f a :: ·) (congrArg (List.map f) ?_)
    apply List.filter_congr
    intro y hy
    have hy' : y ∈ as := mem_dedupFirst.mp hy
    by_cases hya : y = a
    · simp [hya]
    · have hfya : f y ≠ f a := fun he =>
        hya (hinj y (List.mem_cons_of_mem a hy') a (List.mem_cons_self a as) he)
      simp [hya, hfya]

theorem idxIn_eq_countP :
    ∀ {l : List String}, List.Sorted strLe l → l.Nodup →
      ∀ {s : String}, s ∈ l →
        idxIn s l = l.countP (fun x => decide (x.data < s.data)) := by
  intro l
  induction l with
  | nil =>
    intro _ _ s h
    cases h
  | cons c cs ih =>
    intro hs hn s h
    rw [List.sorted_cons] at hs
    rw [List.nodup_cons] at hn
    unfold idxIn
    rw [List.countP_cons]
    by_cases hc : c = s
    · subst hc
      rw [if_pos rfl]
      have h0 : cs.countP (fun x => decide (x.data < c.data)) = 0 := by
        rw [List.countP_eq_zero]
        intro x hx
        simp only [decide_eq_true_eq]
        exact not_lt.mpr (hs.1 x hx)
      rw [h0]
      simp
    · rw [if_neg hc]
      have hscs : s ∈ cs := (List.mem_cons.mp h).resolve_left (fun he => hc he.symm)
      have hlt : c.data < s.data := by
        refine lt_of_le_of_ne (hs.1 s hscs) (fun he => hc (string_data_inj he))
      rw [ih hs.2 hn.2 hscs]
      simp [hlt]

theorem map_idxIn_range :
    ∀ {l : List String}, l.Nodup →
      l.map (fun s => idxIn s l) = List.range l.length := by
  intro l
  induction l with
  | nil => intro; rfl
  | cons c cs ih =>
    intro hn
    rw [List.nodup_cons] at hn
    rw [List.map_cons, List.length_cons, List.range_succ_eq_map]
    refine congrArg₂ (· :: ·) (by simp [idxIn]) ?_
    have hcongr : cs.map (fun s => idxIn s (c :: cs)) =
        cs.map (fun s => idxIn s cs + 1) := by
      apply List.map_congr_left
      intro s hsmem
      have hne : c ≠ s := fun he => hn.1 (by rw [he]; exact hsmem)
      show (if c = s then 0 else idxIn s cs + 1) = idxIn s cs + 1
      rw [if_neg hne]
    rw [hcongr, ← ih hn.2, List.map_map]
    rfl

theorem labelClasses_ext {l₁ l₂ : List String} (h : ∀ x, x ∈ l₁ ↔ x ∈ l₂) :
    labelClasses l₁ = labelClasses l₂ := by
  refine List.eq_of_perm_of_sorted ?_ (sorted_labelClasses l₁) (sorted_labelClasses l₂)
  refine (List.perm_ext_iff_of_nodup (nodup_labelClasses l₁) (nodup_labelClasses l₂)).mpr ?_
  intro a
  rw [mem_labelClasses, mem_labelClasses, h a]

/-! ### Transporting a column through the middle stages -/

theorem col_eq_colAt {t : Table} {name : String} {i : Nat}
    (h : findCol name t.cols = some i) : t.col name = t.colAt i := by
  unfold Table.col
  rw [h]

theorem col_transport {t2 t3 : Table} (hrect : t2.Rect)
    (hdate : dateStage t2 = Except.ok t3) {name : String}
    (h_td : name ≠ "TransactionDate") (h_da : name ≠ "DiscountApplied")
    (h_dap : name ≠ "DiscountApplied(%)") (hkeep : keepCol name = true)
    {i : Nat} (hfc : findCol name t2.cols = some i) :
    ∃ i', findCol name (dropColsStage (renameStage t3)).cols = some i' ∧
      (dropColsStage (renameStage t3)).colAt i' = t2.colAt i := by
  have hcols3 : t3.cols = t2.cols := dateStage_ok_cols hdate
  have hdcol : t3.colAt i = t2.colAt i := by
    apply dateStage_ok_colAt_ne hdate
    intro iTD hTD
    exact findCol_ne_of_ne h_td hfc hTD
  have hfc4 : findCol name (renameStage t3).cols = some i := by
    show findCol name (t3.cols.map renameCol) = some i
    rw [findCol_map (renameCol_fixed h_da h_dap), hcols3]
    exact hfc
  have hrect4 : (renameStage t3).Rect := renameStage_rect (dateStage_rect hrect hdate)
  rcases dropCols_colAt hrect4 hkeep hfc4 with ⟨i', hi', hcolAt⟩
  refine ⟨i', hi', ?_⟩
  rw [hcolAt, show (renameStage t3).colAt i = t3.colAt i from rfl, hdcol]

/-- Core fact shared by the encoding claims: a successful run turns the
PaymentMethod or ProductCategory column into exactly the integer codes of
the surviving string labels, relative to the sorted distinct classes. -/
theorem encoded_col_spec {t t' : Table} {name : String} (hrect : t.Rect)
    (hname : name = "PaymentMethod" ∨ name = "ProductCategory")
    (hmem : name ∈ t.cols) (hok : preprocessTable t = Except.ok t') :
    ∃ ss, colStrs ((dropnaStage (dedupStage t)).col name) = some ss ∧
      t'.col name = ss.map (fun s => some (Value.int (idxIn s (labelClasses ss)))) := by
  rcases preprocessTable_ok_elim hok with ⟨t3, t6, hdate, hpm, hpc⟩
  have hrect2 : (dropnaStage (dedupStage t)).Rect :=
    dropnaStage_rect (dedupStage_rect hrect)
  have h_td : name ≠ "TransactionDate" := by
    rcases hname with rfl | rfl <;> decide
  have h_da : name ≠ "DiscountApplied" := by
    rcases hname with rfl | rfl <;> decide
  have h_dap : name ≠ "DiscountApplied(%)" := by
    rcases hname with rfl | rfl <;> decide
  have hkeep : keepCol name = true := by
    rcases hname with rfl | rfl <;> decide
  rcases findCol_isSome_of_mem
      (show name ∈ (dropnaStage (dedupStage t)).cols from hmem) with ⟨i, hfc⟩
  rcases col_transport hrect2 hdate h_td h_da h_dap hkeep hfc with ⟨i', hi', hcolAt⟩
  have hcol2 : (dropnaStage (dedupStage t)).col name =
      (dropnaStage (dedupStage t)).colAt i := col_eq_colAt hfc
  rcases hname with rfl | rfl
  · -- PaymentMethod is encoded first, directly on the dropped table
    rcases encodeColStage_ok_elim hpm with ⟨hnone, -⟩ | ⟨ie, ss, hfce, hss, hcols6, -⟩
    · rw [hnone] at hi'
      cases hi'
    · rw [hi'] at hfce
      cases hfce
      refine ⟨ss, ?_, ?_⟩
      · rw [hcol2, ← hcolAt]
        exact hss
      · have hcols' : t'.cols = (dropColsStage (renameStage t3)).cols := by
          rw [encodeColStage_ok_cols hpc, hcols6]
        have hfc' : findCol "PaymentMethod" t'.cols = some i' := by
          rw [hcols']
          exact hi'
        rw [col_eq_colAt hfc']
        have h6 := encodeColStage_ok_colAt_self hpm hi' hss
        have hne : t'.colAt i' = t6.colAt i' := by
          apply encodeColStage_ok_colAt_ne hpc
          intro iPC hPC
          have hfc6 : findCol "PaymentMethod" t6.cols = some i' := by
            rw [hcols6]
            exact hi'
          exact findCol_ne_of_ne (by decide) hfc6 hPC
        rw [hne, h6]
  · -- ProductCategory is encoded second, after the PaymentMethod encoding
    have h65 : t6.colAt i' = (dropColsStage (renameStage t3)).colAt i' := by
      apply encodeColStage_ok_colAt_ne hpm
      intro iPM hPM
      exact findCol_ne_of_ne (by decide) hi' hPM
    have hcols6 : t6.cols = (dropColsStage (renameStage t3)).cols :=
      encodeColStage_ok_cols hpm
    have hfc6 : findCol "ProductCategory" t6.cols = some i' := by
      rw [hcols6]
      exact hi'
    rcases encodeColStage_ok_elim hpc with ⟨hnone, -⟩ | ⟨ie, ss, hfce, hss, hcols', -⟩
    · rw [hnone] at hfc6
      cases hfc6
    · rw [hfc6] at hfce
      cases hfce
      refine ⟨ss, ?_, ?_⟩
      · rw [hcol2, ← hcolAt, ← h65]
        exact hss
      · have hfc' : findCol "ProductCategory" t'.cols = some i' := by
          rw [encodeColStage_ok_cols hpc]
          exact hfc6
        rw [col_eq_colAt hfc']
        exact encodeColStage_ok_colAt_self hpc hfc6 hss

/-! ### Row completeness and row counts through a whole run -/

theorem dropCols_rows_complete {t : Table}
    (h : ∀ r ∈ t.rows, rowComplete r = true) :
    ∀ r ∈ (dropColsStage t).rows, rowComplete r = true := by
  intro r hr
  simp only [dropColsStage] at hr
  split at hr
  · exact h r hr
  · rcases List.mem_map.mp hr with ⟨r₀, hr₀, rfl⟩
    exact dropColsRow_complete (h r₀ hr₀)

theorem dropCols_rows_length (t : Table) :
    (dropColsStage t).rows.length = t.rows.length := by
  simp only [dropColsStage]
  split
  · rfl
  · exact List.length_map _ _

theorem encodeColStage_ok_complete {name : String} {t t' : Table}
    (h : encodeColStage name t = Except.ok t')
    (hall : ∀ r ∈ t.rows, rowComplete r = true) :
    ∀ r ∈ t'.rows, rowComplete r = true := by
  rcases encodeColStage_ok_elim h with ⟨-, rfl⟩ | ⟨i, ss, -, -, -, hrows⟩
  · exact hall
  · intro r' hr'
    rw [hrows] at hr'
    rcases List.mem_map.mp hr' with ⟨r, hr, rfl⟩
    exact encodeCell_complete (hall r hr)

theorem dateStage_ok_complete {t t' : Table} (h : dateStage t = Except.ok t')
    (hall : ∀ r ∈ t.rows, rowComplete r = true) :
    ∀ r ∈ t'.rows, rowComplete r = true := by
  rcases dateStage_ok_elim h with ⟨-, rfl⟩ | ⟨i, -, -, hrel⟩
  · exact hall
  · intro r' hr'
    rcases forall₂_mem_right hrel r' hr' with ⟨r, hr, hrow⟩
    exact dateRow_ok_complete hrow (hall r hr)

theorem preprocess_rows_complete {t t' : Table}
    (hok : preprocessTable t = Except.ok t') :
    ∀ r ∈ t'.rows, rowComplete r = true := by
  rcases preprocessTable_ok_elim hok with ⟨t3, t6, hdate, hpm, hpc⟩
  have h2 : ∀ r ∈ (dropnaStage (dedupStage t)).rows, rowComplete r = true := by
    intro r hr
    exact (List.mem_filter.mp hr).2
  have h3 := dateStage_ok_complete hdate h2
  have h4 : ∀ r ∈ (renameStage t3).rows, rowComplete r = true := h3
  have h5 := dropCols_rows_complete h4
  have h6 := encodeColStage_ok_complete hpm h5
  exact encodeColStage_ok_complete hpc h6

theorem preprocess_rows_length {t t' : Table}
    (hok : preprocessTable t = Except.ok t') :
    t'.rows.length = ((dedupFirst t.rows).filter rowComplete).length := by
  rcases preprocessTable_ok_elim hok with ⟨t3, t6, hdate, hpm, hpc⟩
  rw [encodeColStage_ok_rows_length hpc, encodeColStage_ok_rows_length hpm,
    dropCols_rows_length, show (renameStage t3).rows = t3.rows from rfl,
    dateStage_ok_rows_length hdate]
  rfl

/-! ### The file-system wrapper -/

theorem readAt_writeAt (fs : FileSys) (p : String) (t : Table) :
    (fs.writeAt p t).readAt p = some t := by
  unfold FileSys.readAt FileSys.writeAt
  simp [List.lookup]

theorem findCol_rename_da :
    ∀ {cols : List String}, "DiscountApplied" ∉ cols →
      findCol "DiscountApplied" (cols.map renameCol) =
        findCol "DiscountApplied(%)" cols := by
  intro cols
  induction cols with
  | nil => intro; rfl
  | cons c cs ih =>
    intro h
    have hda : c ≠ "DiscountApplied" :=
      fun he => h (by rw [← he]; exact List.mem_cons_self c cs)
    by_cases hc : c = "DiscountApplied(%)"
    · subst hc
      rfl
    · have hrc : renameCol c = c := by
        unfold renameCol
        rw [if_neg hc]
      show (if renameCol c = "DiscountApplied" then some 0
        else (findCol "DiscountApplied" (cs.map renameCol)).map (· + 1)) = _
      rw [hrc, if_neg hda,
        show findCol "DiscountApplied(%)" (c :: cs) =
          (if c = "DiscountApplied(%)" then some 0
            else (findCol "DiscountApplied(%)" cs).map (· + 1)) from rfl,
        if_neg hc, ih (fun hm => h (List.mem_cons_of_mem c hm))]

/-! ### The claims -/

/-- Claim C1: in the table a successful run writes, no row contains a
missing value; and because null removal runs after deduplication but
before the rename, column drop and encoding, the written rows are exactly
as many as the deduplicated loaded rows that are complete over every
load-time column — a row missing a value only in a later-dropped column is
not among them. -/
theorem output_no_missing_values (t t' : Table)
    (hok : preprocessTable t = Except.ok t') :
    (∀ r ∈ t'.rows, ∀ c ∈ r, c.isSome = true) ∧
    t'.rows.length = ((dedupFirst t.rows).filter rowComplete).length := by
  constructor
  · intro r hr c hc
    exact (List.all_eq_true.mp (preprocess_rows_complete hok r hr)) c hc
  · exact preprocess_rows_length hok

theorem output_no_missing_values_witness :
    (∀ r ∈ tExOut.rows, ∀ c ∈ r, c.isSome = true) ∧
    tExOut.rows.length = ((dedupFirst tEx.rows).filter rowComplete).length :=
  output_no_missing_values tEx tExOut rfl

/-- Claim C2: the deduplication stage of a successful run leaves no two
equal rows over the loaded column set, and it keeps exactly the first
occurrence of every row value: its result is the list of first occurrences
in loaded order. -/
theorem dedup_keeps_first_occurrence (t t' : Table)
    (hok : preprocessTable t = Except.ok t') :
    (dedupStage t).rows.Nodup ∧ (dedupStage t).rows = firstOccurrences t.rows :=
  ⟨nodup_dedupFirst t.rows, dedupFirst_eq_firstOccurrences t.rows⟩

theorem dedup_keeps_first_occurrence_witness :
    (dedupStage tEx).rows.Nodup ∧ (dedupStage tEx).rows = firstOccurrences tEx.rows :=
  dedup_keeps_first_occurrence tEx tExOut rfl

/-- Claim C3: when PaymentMethod or ProductCategory is a loaded column of a
rectangular table and the run succeeds, every written value of that column
is a non-negative integer, and the written column has exactly as many
distinct integers as there are distinct string labels among the rows that
survive deduplication and null removal. -/
theorem encoded_columns_nonneg_bijective (t t' : Table) (name : String)
    (hrect : t.Rect)
    (hname : name = "PaymentMethod" ∨ name = "ProductCategory")
    (hmem : name ∈ t.cols) (hok : preprocessTable t = Except.ok t') :
    (∀ c ∈ t'.col name, ∃ n : Int, c = some (Value.int n) ∧ 0 ≤ n) ∧
    ∃ ss, colStrs ((dropnaStage (dedupStage t)).col name) = some ss ∧
      (dedupFirst (t'.col name)).length = (dedupFirst ss).length := by
  rcases encoded_col_spec hrect hname hmem hok with ⟨ss, hss, hcol⟩
  constructor
  · intro c hc
    rw [hcol] at hc
    rcases List.mem_map.mp hc with ⟨s, hs, rfl⟩
    exact ⟨idxIn s (labelClasses ss), rfl, Int.natCast_nonneg _⟩
  · refine ⟨ss, hss, ?_⟩
    rw [hcol]
    have hinj : ∀ x ∈ ss, ∀ y ∈ ss,
        (fun s => (some (Value.int (idxIn s (labelClasses ss))) : Cell)) x =
        (fun s => (some (Value.int (idxIn s (labelClasses ss))) : Cell)) y → x = y := by
      intro x hx y hy he
      simp only [Option.some.injEq, Value.int.injEq, Nat.cast_inj] at he
      exact idxIn_inj (mem_labelClasses.mpr hx) (mem_labelClasses.mpr hy) he
    rw [dedupFirst_map_inj hinj, List.length_map]

theorem encoded_columns_nonneg_bijective_witness :
    (∀ c ∈ tExOut.col "PaymentMethod", ∃ n : Int, c = some (Value.int n) ∧ 0 ≤ n) ∧
    ∃ ss, colStrs ((dropnaStage (dedupStage tEx)).col "PaymentMethod") = some ss ∧
      (dedupFirst (tExOut.col "PaymentMethod")).length = (dedupFirst ss).length :=
  encoded_columns_nonneg_bijective tEx tExOut "PaymentMethod" (by decide)
    (Or.inl rfl) (by decide) rfl

/-- Claim C4: for a rectangular table that has the literal column
DiscountApplied(%) and no column already named DiscountApplied, a
successful run writes no DiscountApplied(%) column, writes a
DiscountApplied column whose cells are exactly the surviving rows'
original DiscountApplied(%) values in order; and on any table without the
DiscountApplied(%) column the rename stage is the identity (it cannot
fail, being a total function). -/
theorem discount_column_renamed (t t' u : Table) (hrect : t.Rect)
    (hda : "DiscountApplied(%)" ∈ t.cols)
    (hnew : "DiscountApplied" ∉ t.cols)
    (hok : preprocessTable t = Except.ok t')
    (hu : "DiscountApplied(%)" ∉ u.cols) :
    "DiscountApplied(%)" ∉ t'.cols ∧ "DiscountApplied" ∈ t'.cols ∧
    t'.col "DiscountApplied" =
      (dropnaStage (dedupStage t)).col "DiscountApplied(%)" ∧
    renameStage u = u := by
  rcases preprocessTable_ok_elim hok with ⟨t3, t6, hdate, hpm, hpc⟩
  have hcols3 : t3.cols = t.cols := by
    have h := dateStage_ok_cols hdate
    exact h
  have hcols' : t'.cols = (dropColsStage (renameStage t3)).cols := by
    rw [encodeColStage_ok_cols hpc, encodeColStage_ok_cols hpm]
  have hcols5 : (dropColsStage (renameStage t3)).cols =
      (t3.cols.map renameCol).filter keepCol := by
    rw [dropCols_cols]
    rfl
  refine ⟨?_, ?_, ?_, renameStage_id_of_not_mem hu⟩
  · rw [hcols', hcols5]
    intro hmem'
    exact renameStage_not_mem t3 (List.mem_filter.mp hmem').1
  · rw [hcols', hcols5]
    apply List.mem_filter.mpr
    refine ⟨?_, by decide⟩
    apply List.mem_map.mpr
    exact ⟨"DiscountApplied(%)", by rw [hcols3]; exact hda, rfl⟩
  · have hrect2 : (dropnaStage (dedupStage t)).Rect :=
      dropnaStage_rect (dedupStage_rect hrect)
    rcases findCol_isSome_of_mem
        (show "DiscountApplied(%)" ∈ (dropnaStage (dedupStage t)).cols from hda)
        with ⟨i, hfc⟩
    have hdcol : t3.colAt i = (dropnaStage (dedupStage t)).colAt i := by
      apply dateStage_ok_colAt_ne hdate
      intro iTD hTD
      exact findCol_ne_of_ne (by decide) hfc hTD
    have hfc4 : findCol "DiscountApplied" (renameStage t3).cols = some i := by
      show findCol "DiscountApplied" (t3.cols.map renameCol) = some i
      rw [findCol_rename_da (by rw [hcols3]; exact hnew), hcols3]
      exact hfc
    have hrect4 : (renameStage t3).Rect :=
      renameStage_rect (dateStage_rect hrect2 hdate)
    rcases dropCols_colAt hrect4 (by decide) hfc4 with ⟨i', hi', hcolAt⟩
    have hcols6 : t6.cols = (dropColsStage (renameStage t3)).cols :=
      encodeColStage_ok_cols hpm
    have h65 : t6.colAt i' = (dropColsStage (renameStage t3)).colAt i' := by
      apply encodeColStage_ok_colAt_ne hpm
      intro iPM hPM
      exact findCol_ne_of_ne (by decide) hi' hPM
    have hfc6 : findCol "DiscountApplied" t6.cols = some i' := by
      rw [hcols6]
      exact hi'
    have h76 : t'.colAt i' = t6.colAt i' := by
      apply encodeColStage_ok_colAt_ne hpc
      intro iPC hPC
      exact findCol_ne_of_ne (by decide) hfc6 hPC
    have hfc' : findCol "DiscountApplied" t'.cols = some i' := by
      rw [encodeColStage_ok_cols hpc]
      exact hfc6
    rw [col_eq_colAt hfc', col_eq_colAt hfc, h76, h65, hcolAt,
      show (renameStage t3).colAt i = t3.colAt i from rfl, hdcol]

theorem discount_column_renamed_witness :
    "DiscountApplied(%)" ∉ tExOut.cols ∧ "DiscountApplied" ∈ tExOut.cols ∧
    tExOut.col "DiscountApplied" =
      (dropnaStage (dedupStage tEx)).col "DiscountApplied(%)" ∧
    renameStage tBad = tBad :=
  discount_column_renamed tEx tExOut tBad (by decide) (by decide) (by decide)
    rfl (by decide)

/-- Claim C5: after a successful run neither StoreLocation nor ProductID is
a column of the written table, and on every table the drop stage (a total
function, so absence of either column is no error) keeps exactly the
columns outside the dropped pair. -/
theorem dropped_columns_absent (t t' u : Table)
    (hok : preprocessTable t = Except.ok t') :
    "StoreLocation" ∉ t'.cols ∧ "ProductID" ∉ t'.cols ∧
    (dropColsStage u).cols = u.cols.filter keepCol := by
  rcases preprocessTable_ok_elim hok with ⟨t3, t6, hdate, hpm, hpc⟩
  have hcols' : t'.cols = ((renameStage t3).cols).filter keepCol := by
    rw [encodeColStage_ok_cols hpc, encodeColStage_ok_cols hpm, dropCols_cols]
  refine ⟨?_, ?_, dropCols_cols u⟩
  · rw [hcols']
    intro hm
    exact absurd (List.mem_filter.mp hm).2 (by decide)
  · rw [hcols']
    intro hm
    exact absurd (List.mem_filter.mp hm).2 (by decide)

theorem dropped_columns_absent_witness :
    "StoreLocation" ∉ tExOut.cols ∧ "ProductID" ∉ tExOut.cols ∧
    (dropColsStage tEx).cols = tEx.cols.filter keepCol :=
  dropped_columns_absent tEx tExOut tEx rfl

/-- Claim C6: called on an input path with no file, the operation fails
with the FileNotFoundError message naming that path, prints nothing, and
leaves the file system untouched — no output file is produced and no
reading or transformation happens. -/
theorem missing_input_fails (fs : FileSys) (input output : String)
    (verbose : Bool) (h : fs.readAt input = none) :
    preprocess_transaction_data fs input output verbose =
      ([], fs, Except.error ("File input tidak ditemukan: " ++ input)) := by
  unfold preprocess_transaction_data
  rw [h]

theorem missing_input_fails_witness :
    preprocess_transaction_data fsEmpty "raw.csv" "out.csv" true =
      ([], fsEmpty, Except.error ("File input tidak ditemukan: " ++ "raw.csv")) :=
  missing_input_fails fsEmpty "raw.csv" "out.csv" true rfl

/-- Claim C7: the pipeline is deterministic — two calls on the same file
content, with any output paths and verbosity, write tables with identical
content (both equal the unique transform of the input table). -/
theorem same_input_same_output (fs : FileSys) (input o₁ o₂ : String)
    (v₁ v₂ : Bool) (t t' : Table) (hread : fs.readAt input = some t)
    (hok : preprocessTable t = Except.ok t') :
    (preprocess_transaction_data fs input o₁ v₁).2.1.readAt o₁ = some t' ∧
    (preprocess_transaction_data fs input o₂ v₂).2.1.readAt o₂ = some t' := by
  unfold preprocess_transaction_data
  rw [hread]
  simp only [hok]
  exact ⟨readAt_writeAt fs o₁ t', readAt_writeAt fs o₂ t'⟩

theorem same_input_same_output_witness :
    (preprocess_transaction_data fsEx "raw.csv" "out1.csv" true).2.1.readAt "out1.csv" =
      some tExOut ∧
    (preprocess_transaction_data fsEx "raw.csv" "out2.csv" false).2.1.readAt "out2.csv" =
      some tExOut :=
  same_input_same_output fsEx "raw.csv" "out1.csv" "out2.csv" true false
    tEx tExOut rfl rfl

/-- Claim C8: the verbose flag only changes what is printed; the final file
system and the returned value are identical with verbose on and off. -/
theorem verbose_noninterference (fs : FileSys) (input output : String) :
    (preprocess_transaction_data fs input output true).2 =
    (preprocess_transaction_data fs input output false).2 := by
  unfold preprocess_transaction_data
  cases hread : fs.readAt input with
  | none => rfl
  | some t =>
    dsimp only
    cases hok : preprocessTable t with
    | error e => rfl
    | ok t' => rfl

/-- Claim C9: if the table at the input path has a TransactionDate column
and some surviving value in it fails to parse as a date, the run fails
loudly: the error propagates to the caller and the file system is
unchanged, so no output file is written and no row is given a null or
sentinel date. -/
theorem unparsable_date_fails (fs : FileSys) (input output : String)
    (verbose : Bool) (t : Table) (hread : fs.readAt input = some t)
    (htd : "TransactionDate" ∈ t.cols)
    (hbad : ∃ s, some (Value.str s) ∈
        (dropnaStage (dedupStage t)).col "TransactionDate" ∧ parseDate s = none) :
    ∃ e, (preprocess_transaction_data fs input output verbose).2 =
      (fs, Except.error e) := by
  rcases hbad with ⟨s, hmem, hps⟩
  rcases findCol_isSome_of_mem
      (show "TransactionDate" ∈ (dropnaStage (dedupStage t)).cols from htd)
      with ⟨i, hfc⟩
  rw [col_eq_colAt hfc] at hmem
  rcases List.mem_map.mp hmem with ⟨r, hr, hgd⟩
  have hrowerr : dateRow i r = Except.error ("unparsable date: " ++ s) := by
    unfold dateRow
    rw [hgd]
    simp [parseCell, hps]
  rcases mapMExcept_error_of_mem hr hrowerr with ⟨e', he'⟩
  have hdate : dateStage (dropnaStage (dedupStage t)) = Except.error e' := by
    unfold dateStage
    rw [hfc]
    dsimp only
    rw [he']
  have hpre : preprocessTable t = Except.error e' := by
    unfold preprocessTable
    rw [hdate]
  refine ⟨e', ?_⟩
  unfold preprocess_transaction_data
  rw [hread]
  simp only [hpre]

theorem unparsable_date_fails_witness :
    ∃ e, (preprocess_transaction_data fsBad "raw.csv" "out.csv" true).2 =
      (fsBad, Except.error e) :=
  unparsable_date_fails fsBad "raw.csv" "out.csv" true tBad rfl (by decide)
    ⟨"oops", by decide, rfl⟩

/-- Claim C10: the label encoding assigns each surviving label the rank of
that label (from 0) in the ascending lexicographic order of the distinct
surviving labels: the written column is the per-row code list, each code
counts the distinct labels strictly below its label, the codes of the
distinct labels are exactly 0 through k-1, and the classes depend only on
the set of surviving labels, not on row order of first occurrence. -/
theorem codes_are_sorted_ranks (t t' : Table) (name : String)
    (hrect : t.Rect)
    (hname : name = "PaymentMethod" ∨ name = "ProductCategory")
    (hmem : name ∈ t.cols) (hok : preprocessTable t = Except.ok t') :
    ∃ ss, colStrs ((dropnaStage (dedupStage t)).col name) = some ss ∧
      t'.col name = ss.map (fun s => some (Value.int (idxIn s (labelClasses ss)))) ∧
      (∀ s ∈ ss, idxIn s (labelClasses ss) =
        (dedupFirst ss).countP (fun x => decide (x.data < s.data))) ∧
      (labelClasses ss).map (fun s => idxIn s (labelClasses ss)) =
        List.range (dedupFirst ss).length ∧
      ∀ l₂ : List String, (∀ x, x ∈ l₂ ↔ x ∈ ss) →
        labelClasses l₂ = labelClasses ss := by
  rcases encoded_col_spec hrect hname hmem hok with ⟨ss, hss, hcol⟩
  refine ⟨ss, hss, hcol, ?_, ?_, ?_⟩
  · intro s hs
    rw [idxIn_eq_countP (sorted_labelClasses ss) (nodup_labelClasses ss)
      (mem_labelClasses.mpr hs)]
    exact (List.perm_insertionSort strLe (dedupFirst ss)).countP_eq _
  · rw [map_idxIn_range (nodup_labelClasses ss), length_labelClasses]
  · intro l₂ hl₂
    exact labelClasses_ext hl₂

theorem codes_are_sorted_ranks_witness :
    ∃ ss, colStrs ((dropnaStage (dedupStage tEx)).col "ProductCategory") = some ss ∧
      tExOut.col "ProductCategory" =
        ss.map (fun s => some (Value.int (idxIn s (labelClasses ss)))) ∧
      (∀ s ∈ ss, idxIn s (labelClasses ss) =
        (dedupFirst ss).countP (fun x => decide (x.data < s.data))) ∧
      (labelClasses ss).map (fun s => idxIn s (labelClasses ss)) =
        List.range (dedupFirst ss).length ∧
      ∀ l₂ : List String, (∀ x, x ∈ l₂ ↔ x ∈ ss) →
        labelClasses l₂ = labelClasses ss :=
  codes_are_sorted_ranks tEx tExOut "ProductCategory" (by decide)
    (Or.inr rfl) (by decide) rfl

end Retail
